import Mathlib

/-!
Verification of the onebrc streaming aggregation pipeline.

The repository source (src/utils/onebrc.py) selects an input file name from
the command line (embedded below as `fname`) and delegates the grouped
min/mean/max aggregation to a library call. The aggregation engine itself
(chunk handling, record parsing, per-key partial statistics, merging, and
the error policies) is specified by the repository's design document but its
implementation is not part of the source tree; those parts are modelled from
the spec, as flagged on each definition.

Records are lines `key;number`; values are represented as exact rationals
(the spec's fixed-point requirement) so that min/mean/max are deterministic.
-/

/-- A grouping key: the character sequence before the field delimiter. -/
abbrev Key := List Char

/-- A parsed record: a key paired with its numeric measurement. -/
abbrev Record := Key × Rat

/-- Modelled from the spec: `PartialStats` — per-key running aggregate
(count, sum, min, max); the Chunk-Reader/Aggregator implementation is not
in the source tree. -/
structure PartialStats where
  count : Nat
  sum : Rat
  min : Rat
  max : Rat
deriving DecidableEq

instance : Inhabited PartialStats := ⟨⟨0, 0, 0, 0⟩⟩

/-- Modelled from the spec: stats inserted on the first occurrence of a key:
count=1, sum=v, min=v, max=v. -/
def initStats (v : Rat) : PartialStats := ⟨1, v, v, v⟩

/-- Modelled from the spec: update rule for a later value v:
count+=1, sum+=v, min=min(min,v), max=max(max,v). -/
def updateStats (s : PartialStats) (v : Rat) : PartialStats :=
  ⟨s.count + 1, s.sum + v, min s.min v, max s.max v⟩

/-- Modelled from the spec: the Merger combination rule for two stats on the
same key: count = a.count + b.count, sum = a.sum + b.sum,
min = min(a.min, b.min), max = max(a.max, b.max). -/
def mergeStats (a b : PartialStats) : PartialStats :=
  ⟨a.count + b.count, a.sum + b.sum, min a.min b.min, max a.max b.max⟩

/-- A per-worker mapping from keys to running statistics, kept in
first-occurrence order. -/
abbrev StatsMap := List (Key × PartialStats)

/-- Look a key up in a statistics mapping. -/
def lookupKey (k : Key) : StatsMap → Option PartialStats
  | [] => none
  | (q, s) :: rest => if q = k then some s else lookupKey k rest

/-- Modelled from the spec: fold one value into the mapping — insert
`initStats v` if the key is absent, apply `updateStats` otherwise. -/
def foldValue (m : StatsMap) (k : Key) (v : Rat) : StatsMap :=
  match m with
  | [] => [(k, initStats v)]
  | (q, s) :: rest =>
    if q = k then (q, updateStats s v) :: rest else (q, s) :: foldValue rest k v

/-- Fold a sequence of records into an existing mapping, in file order. -/
def aggregateFrom (m : StatsMap) (rs : List Record) : StatsMap :=
  rs.foldl (fun acc r => foldValue acc r.1 r.2) m

/-- Modelled from the spec: the Partial Aggregator for one chunk, starting
from an empty mapping. -/
def aggregate (rs : List Record) : StatsMap := aggregateFrom [] rs

/-- Modelled from the spec: merge one key's partial statistics into a
mapping, using the Merger combination rule. -/
def mergeInto (m : StatsMap) (k : Key) (s : PartialStats) : StatsMap :=
  match m with
  | [] => [(k, s)]
  | (q, t) :: rest =>
    if q = k then (q, mergeStats t s) :: rest else (q, t) :: mergeInto rest k s

/-- Modelled from the spec: merge a second per-worker mapping into a first. -/
def mergeMaps (m1 m2 : StatsMap) : StatsMap :=
  m2.foldl (fun acc e => mergeInto acc e.1 e.2) m1

/-- Modelled from the spec: merge the per-worker mappings of all chunks. -/
def mergeAll (ms : List StatsMap) : StatsMap := ms.foldl mergeMaps []

/-- Split a character sequence at the first occurrence of the delimiter `d`:
everything strictly before that occurrence, and everything strictly after
it; `none` when `d` does not occur. -/
def splitFirstOn (d : Char) : List Char → Option (List Char × List Char)
  | [] => none
  | c :: cs =>
    if c = d then some ([], cs)
    else
      match splitFirstOn d cs with
      | none => none
      | some (a, b) => some (c :: a, b)

/-- Modelled from the spec: the error taxonomy for malformed records —
missing delimiter, empty key, empty numeric field, unparsable number. -/
inductive FormatError where
  | missingDelimiter
  | emptyKey
  | emptyField
  | badNumber
deriving DecidableEq

/-- Numeric value of a sequence of decimal digit characters. -/
def digitsVal (ds : List Char) : Nat :=
  ds.foldl (fun n c => 10 * n + (c.toNat - 48)) 0

/-- Whether every character of the sequence is a decimal digit. -/
def allDigits (ds : List Char) : Bool := ds.all (fun c => c.isDigit)

/-- Modelled from the spec: parse an unsigned decimal numeral — digits with
at most one fractional separator, rejecting any additional characters. -/
def parseUnsigned (cs : List Char) : Option Rat :=
  match splitFirstOn '.' cs with
  | none => if !cs.isEmpty && allDigits cs then some (digitsVal cs) else none
  | some (ip, fp) =>
    if !ip.isEmpty && !fp.isEmpty && allDigits ip && allDigits fp then
      some ((digitsVal ip : Rat) + (digitsVal fp : Rat) / ((10 : Rat) ^ fp.length))
    else none

/-- Modelled from the spec: parse a decimal number with an optional leading
sign; any field with additional characters is rejected. -/
def parseNumber : List Char → Option Rat
  | [] => none
  | c :: cs =>
    if c = '-' then (parseUnsigned cs).map (fun q => -q)
    else if c = '+' then parseUnsigned cs
    else parseUnsigned (c :: cs)

/-- Modelled from the spec: the Line Parser on one record — split on the
first field delimiter, take the part before it as the key and the part
after it as the numeric field; malformed records surface a `FormatError`
instead of being silently skipped. -/
def parseRecord (line : List Char) : Except FormatError Record :=
  match splitFirstOn ';' line with
  | none => .error .missingDelimiter
  | some (k, rest) =>
    if k.isEmpty then .error .emptyKey
    else if rest.isEmpty then .error .emptyField
    else
      match parseNumber rest with
      | none => .error .badNumber
      | some v => .ok (k, v)

/-- Parse every record line, surfacing the first `FormatError`. -/
def parseAll : List (List Char) → Except FormatError (List Record)
  | [] => .ok []
  | l :: ls =>
    match parseRecord l with
    | .error e => .error e
    | .ok r =>
      match parseAll ls with
      | .error e => .error e
      | .ok rs => .ok (r :: rs)

/-- Modelled from the spec: the pipeline under the abort-on-first-error
policy — a `FormatError` halts the whole run. -/
def runAbort (lines : List (List Char)) : Except FormatError StatsMap :=
  match parseAll lines with
  | .error e => .error e
  | .ok rs => .ok (aggregate rs)

/-- Modelled from the spec: the skip-and-count policy — malformed records
are excluded from the statistics and tallied. -/
def runSkipFrom (m : StatsMap) (n : Nat) : List (List Char) → StatsMap × Nat
  | [] => (m, n)
  | l :: ls =>
    match parseRecord l with
    | .ok r => runSkipFrom (foldValue m r.1 r.2) n ls
    | .error _ => runSkipFrom m (n + 1) ls

/-- Run the skip-and-count pipeline from an empty mapping and a zero
malformed-record tally. -/
def runSkip (lines : List (List Char)) : StatsMap × Nat := runSkipFrom [] 0 lines

/-- Process exit status: 0 on success, non-zero on an error under the
abort policy. -/
def exitCode : Except FormatError StatsMap → Nat
  | .ok _ => 0
  | .error _ => 1

/-- Split file content on the record separator, keeping every segment
(an empty file yields one empty segment). -/
def splitOnNl : List Char → List (List Char)
  | [] => [[]]
  | c :: cs =>
    match splitOnNl cs with
    | [] => [[c]]
    | s :: ss => if c = '\n' then [] :: s :: ss else (c :: s) :: ss

/-- Record lines of a file: newline-separated segments, without the empty
segment after a trailing record separator; an empty file has no records. -/
def toLines (cs : List Char) : List (List Char) :=
  let segs := splitOnNl cs
  if segs.getLast? = some [] then segs.dropLast else segs

/-- Modelled from the spec: the whole pipeline on raw file content under
the abort policy. -/
def processFile (content : List Char) : Except FormatError StatsMap :=
  runAbort (toLines content)

/-- From src/utils/onebrc.py lines 5-8: the input path is `argv[1]` when
`len(argv) == 2` and the fixed sample path otherwise. -/
def fname (argv : List String) : String :=
  if argv.length = 2 then argv.getD 1 "" else "./data/test.txt"

/-- Mean of an aggregate, computed only at output time. -/
def meanOf (s : PartialStats) : Rat := s.sum / (s.count : Rat)

/-- The values associated with key `k` in a record sequence, in file order. -/
def valuesOf (k : Key) (rs : List Record) : List Rat :=
  rs.filterMap (fun r => if r.1 = k then some r.2 else none)

/-- The partial statistics stored for key `k` in a mapping, in order. -/
def valsIn (k : Key) (m : StatsMap) : List PartialStats :=
  m.filterMap (fun e => if e.1 = k then some e.2 else none)

/-- Fold one value into an optional per-key aggregate. -/
def foldOpt (o : Option PartialStats) (v : Rat) : PartialStats :=
  match o with
  | none => initStats v
  | some s => updateStats s v

/-- Fold a value sequence into an optional per-key aggregate. -/
def optFoldVals (o : Option PartialStats) (vs : List Rat) : Option PartialStats :=
  vs.foldl (fun acc v => some (foldOpt acc v)) o

/-- Merge one partial statistic into an optional per-key aggregate. -/
def mergeOpt (a : Option PartialStats) (b : PartialStats) : PartialStats :=
  match a with
  | none => b
  | some s => mergeStats s b

/-- Merge a sequence of partial statistics into an optional aggregate. -/
def optMergeList (o : Option PartialStats) (ss : List PartialStats) : Option PartialStats :=
  ss.foldl (fun acc s => some (mergeOpt acc s)) o

/-- The records of the well-formed lines, in file order. -/
def okRecords (lines : List (List Char)) : List Record :=
  lines.filterMap (fun l => (parseRecord l).toOption)

/-- The number of malformed lines. -/
def badCount (lines : List (List Char)) : Nat :=
  (lines.filter (fun l => !(parseRecord l).toOption.isSome)).length

/-- A mapping's keys are pairwise distinct. -/
def keysNodup (m : StatsMap) : Prop := (m.map Prod.fst).Nodup

/-- The statistics of a value sequence agree with it: count is its length,
sum its sum, and min/max are attained bounds. -/
def goodStats (s : PartialStats) (xs : List Rat) : Prop :=
  s.count = xs.length ∧ s.sum = xs.sum ∧ s.min ∈ xs ∧ s.max ∈ xs ∧
    ∀ x ∈ xs, s.min ≤ x ∧ x ≤ s.max

theorem lookupKey_foldValue (m : StatsMap) (k q : Key) (v : Rat) :
    lookupKey q (foldValue m k v) =
      if k = q then some (foldOpt (lookupKey q m) v) else lookupKey q m := by
  induction m with
  | nil =>
    by_cases h : k = q <;> simp [foldValue, lookupKey, h, foldOpt]
  | cons e rest ih =>
    obtain ⟨p, s⟩ := e
    by_cases hpk : p = k
    · subst hpk
      by_cases hpq : p = q
      · subst hpq
        simp [foldValue, lookupKey, foldOpt]
      · simp [foldValue, lookupKey, hpq, if_neg (Ne.symm hpq)]
    · by_cases hpq : p = q
      · subst hpq
        have hk : k ≠ p := fun h => hpk h.symm
        simp [foldValue, lookupKey, hpk, if_neg hk]
      · simp [foldValue, lookupKey, hpk, hpq, ih]

theorem lookupKey_mergeInto (m : StatsMap) (k q : Key) (s : PartialStats) :
    lookupKey q (mergeInto m k s) =
      if k = q then some (mergeOpt (lookupKey q m) s) else lookupKey q m := by
  induction m with
  | nil =>
    by_cases h : k = q <;> simp [mergeInto, lookupKey, h, mergeOpt]
  | cons e rest ih =>
    obtain ⟨p, t⟩ := e
    by_cases hpk : p = k
    · subst hpk
      by_cases hpq : p = q
      · subst hpq
        simp [mergeInto, lookupKey, mergeOpt]
      · simp [mergeInto, lookupKey, hpq, if_neg (Ne.symm hpq)]
    · by_cases hpq : p = q
      · subst hpq
        have hk : k ≠ p := fun h => hpk h.symm
        simp [mergeInto, lookupKey, hpk, if_neg hk]
      · simp [mergeInto, lookupKey, hpk, hpq, ih]

theorem valuesOf_cons (k : Key) (r : Record) (rs : List Record) :
    valuesOf k (r :: rs) =
      if r.1 = k then r.2 :: valuesOf k rs else valuesOf k rs := by
  by_cases h : r.1 = k <;> simp [valuesOf, h]

theorem lookupKey_aggregateFrom (rs : List Record) (m : StatsMap) (k : Key) :
    lookupKey k (aggregateFrom m rs) = optFoldVals (lookupKey k m) (valuesOf k rs) := by
  induction rs generalizing m with
  | nil => simp [aggregateFrom, valuesOf, optFoldVals]
  | cons r rest ih =>
    have hstep : aggregateFrom m (r :: rest) = aggregateFrom (foldValue m r.1 r.2) rest := rfl
    rw [hstep, ih, lookupKey_foldValue, valuesOf_cons]
    by_cases h : r.1 = k
    · simp [h, optFoldVals]
    · simp [h]

theorem lookupKey_aggregate (rs : List Record) (k : Key) :
    lookupKey k (aggregate rs) = optFoldVals none (valuesOf k rs) := by
  simpa [aggregate, lookupKey] using lookupKey_aggregateFrom rs [] k

theorem mergeStats_assoc (a b c : PartialStats) :
    mergeStats (mergeStats a b) c = mergeStats a (mergeStats b c) := by
  simp [mergeStats, Nat.add_assoc, add_assoc, min_assoc, max_assoc]

theorem mergeStats_comm (a b : PartialStats) :
    mergeStats a b = mergeStats b a := by
  simp [mergeStats, Nat.add_comm, add_comm, min_comm, max_comm]

theorem updateStats_eq_merge (s : PartialStats) (v : Rat) :
    updateStats s v = mergeStats s (initStats v) := rfl

theorem foldl_updateStats_merge (vs : List Rat) (a b : PartialStats) :
    vs.foldl updateStats (mergeStats a b) = mergeStats a (vs.foldl updateStats b) := by
  induction vs generalizing b with
  | nil => rfl
  | cons v rest ih =>
    have h : updateStats (mergeStats a b) v = mergeStats a (updateStats b v) := by
      rw [updateStats_eq_merge, updateStats_eq_merge, mergeStats_assoc]
    simp only [List.foldl_cons, h, ih]


theorem optFoldVals_some (vs : List Rat) (s : PartialStats) :
    optFoldVals (some s) vs = some (vs.foldl updateStats s) := by
  induction vs generalizing s with
  | nil => rfl
  | cons v rest ih => exact ih (updateStats s v)

theorem optFoldVals_append (o : Option PartialStats) (vs ws : List Rat) :
    optFoldVals o (vs ++ ws) = optFoldVals (optFoldVals o vs) ws := by
  simp [optFoldVals, List.foldl_append]

theorem mem_keys_foldValue (m : StatsMap) (k q : Key) (v : Rat)
    (h : q ∈ (foldValue m k v).map Prod.fst) : q ∈ m.map Prod.fst ∨ q = k := by
  induction m with
  | nil =>
    simp [foldValue] at h
    exact Or.inr h
  | cons e rest ih =>
    obtain ⟨p, s⟩ := e
    by_cases hpk : p = k
    · simp only [foldValue, if_pos hpk, List.map_cons, List.mem_cons] at h
      exact Or.inl (by simpa using h)
    · simp only [foldValue, if_neg hpk, List.map_cons, List.mem_cons] at h
      rcases h with h | h
      · exact Or.inl (by simp [h])
      · rcases ih h with h1 | h1
        · exact Or.inl (by simp [h1])
        · exact Or.inr h1

theorem keysNodup_foldValue (m : StatsMap) (k : Key) (v : Rat)
    (h : keysNodup m) : keysNodup (foldValue m k v) := by
  induction m with
  | nil => simp [foldValue, keysNodup]
  | cons e rest ih =>
    obtain ⟨p, s⟩ := e
    simp only [keysNodup, List.map_cons, List.nodup_cons] at h
    by_cases hpk : p = k
    · simp only [foldValue, if_pos hpk, keysNodup, List.map_cons, List.nodup_cons]
      exact h
    · have hrest := ih h.2
      simp only [foldValue, if_neg hpk, keysNodup, List.map_cons, List.nodup_cons]
      refine ⟨fun hmem => ?_, hrest⟩
      rcases mem_keys_foldValue rest k p v hmem with h1 | h1
      · exact h.1 h1
      · exact hpk h1

theorem keysNodup_aggregateFrom (rs : List Record) (m : StatsMap)
    (h : keysNodup m) : keysNodup (aggregateFrom m rs) := by
  induction rs generalizing m with
  | nil => simpa [aggregateFrom] using h
  | cons r rest ih =>
    have hstep : aggregateFrom m (r :: rest) = aggregateFrom (foldValue m r.1 r.2) rest := rfl
    rw [hstep]
    exact ih _ (keysNodup_foldValue m r.1 r.2 h)

theorem keysNodup_aggregate (rs : List Record) : keysNodup (aggregate rs) :=
  keysNodup_aggregateFrom rs [] (by simp [keysNodup])

theorem valsIn_eq_nil (k : Key) (m : StatsMap)
    (h : k ∉ m.map Prod.fst) : valsIn k m = [] := by
  induction m with
  | nil => rfl
  | cons e rest ih =>
    simp only [List.map_cons, List.mem_cons] at h
    push_neg at h
    have he : e.1 ≠ k := fun hh => h.1 hh.symm
    simp only [valsIn, List.filterMap_cons, if_neg he]
    exact ih h.2

theorem valsIn_of_nodup (k : Key) (m : StatsMap) (h : keysNodup m) :
    valsIn k m =
      match lookupKey k m with
      | none => []
      | some s => [s] := by
  induction m with
  | nil => rfl
  | cons e rest ih =>
    obtain ⟨p, s⟩ := e
    simp only [keysNodup, List.map_cons, List.nodup_cons] at h
    by_cases hpk : p = k
    · subst hpk
      have hnil : valsIn p rest = [] := valsIn_eq_nil p rest h.1
      have h1 : valsIn p ((p, s) :: rest) = s :: valsIn p rest := by
        simp [valsIn, List.filterMap_cons]
      have h2 : lookupKey p ((p, s) :: rest) = some s := by
        simp [lookupKey]
      rw [h1, h2, hnil]
    · have hrec := ih h.2
      have h1 : valsIn k ((p, s) :: rest) = valsIn k rest := by
        simp [valsIn, List.filterMap_cons, hpk]
      have h2 : lookupKey k ((p, s) :: rest) = lookupKey k rest := by
        simp [lookupKey, hpk]
      rw [h1, h2, hrec]

theorem lookupKey_mergeMaps (m2 m1 : StatsMap) (k : Key) :
    lookupKey k (mergeMaps m1 m2) = optMergeList (lookupKey k m1) (valsIn k m2) := by
  induction m2 generalizing m1 with
  | nil => rfl
  | cons e rest ih =>
    obtain ⟨p, s⟩ := e
    have hstep : mergeMaps m1 ((p, s) :: rest) = mergeMaps (mergeInto m1 p s) rest := rfl
    rw [hstep, ih, lookupKey_mergeInto]
    by_cases hpk : p = k
    · simp [hpk, valsIn, List.filterMap_cons, optMergeList]
    · simp [hpk, valsIn, List.filterMap_cons]

theorem optMergeList_valsIn_aggregate (o : Option PartialStats) (k : Key) (c : List Record) :
    optMergeList o (valsIn k (aggregate c)) = optFoldVals o (valuesOf k c) := by
  have hv := valsIn_of_nodup k (aggregate c) (keysNodup_aggregate c)
  rw [lookupKey_aggregate] at hv
  rcases hvc : valuesOf k c with _ | ⟨v, vs⟩
  · rw [hvc] at hv
    simp only [optFoldVals, List.foldl_nil] at hv
    rw [hv]
    rfl
  · rw [hvc] at hv
    have hsome : optFoldVals none (v :: vs) = some (vs.foldl updateStats (initStats v)) := by
      have h0 : optFoldVals none (v :: vs) = optFoldVals (some (initStats v)) vs := rfl
      rw [h0, optFoldVals_some]
    rw [hsome] at hv
    have hv2 : valsIn k (aggregate c) = [vs.foldl updateStats (initStats v)] := hv
    rw [hv2]
    rcases o with _ | a
    · simp only [optMergeList, List.foldl_cons, List.foldl_nil, mergeOpt]
      rw [hsome]
    · simp only [optMergeList, List.foldl_cons, List.foldl_nil, mergeOpt]
      have hfold : optFoldVals (some a) (v :: vs) = some ((v :: vs).foldl updateStats a) :=
        optFoldVals_some (v :: vs) a
      rw [hfold]
      have h1 : (v :: vs).foldl updateStats a = vs.foldl updateStats (updateStats a v) := rfl
      rw [h1, updateStats_eq_merge, foldl_updateStats_merge]

theorem valuesOf_append (k : Key) (rs ss : List Record) :
    valuesOf k (rs ++ ss) = valuesOf k rs ++ valuesOf k ss := by
  simp [valuesOf, List.filterMap_append]

theorem lookupKey_foldl_mergeMaps (k : Key) (chunks : List (List Record)) (m : StatsMap) :
    lookupKey k ((chunks.map aggregate).foldl mergeMaps m) =
      optFoldVals (lookupKey k m) ((chunks.map (valuesOf k)).flatten) := by
  induction chunks generalizing m with
  | nil => rfl
  | cons c rest ih =>
    have hstep : ((c :: rest).map aggregate).foldl mergeMaps m =
        (rest.map aggregate).foldl mergeMaps (mergeMaps m (aggregate c)) := rfl
    rw [hstep, ih, lookupKey_mergeMaps, optMergeList_valsIn_aggregate]
    have hjoin : ((c :: rest).map (valuesOf k)).flatten =
        valuesOf k c ++ (rest.map (valuesOf k)).flatten := by
      simp [List.flatten_cons]
    rw [hjoin, optFoldVals_append]

theorem valuesOf_flatten (k : Key) (chunks : List (List Record)) :
    valuesOf k chunks.flatten = (chunks.map (valuesOf k)).flatten := by
  induction chunks with
  | nil => rfl
  | cons c rest ih =>
    simp only [List.flatten_cons, List.map_cons, valuesOf_append, ih]

theorem goodStats_foldl (vs : List Rat) (s : PartialStats) (xs : List Rat)
    (h : goodStats s xs) : goodStats (vs.foldl updateStats s) (xs ++ vs) := by
  induction vs generalizing s xs with
  | nil => simpa using h
  | cons v rest ih =>
    have hstep : goodStats (updateStats s v) (xs ++ [v]) := by
      obtain ⟨hc, hs, hmin, hmax, hbound⟩ := h
      refine ⟨?_, ?_, ?_, ?_, ?_⟩
      · simp [updateStats, hc]
      · simp [updateStats, hs]
      · rcases le_or_lt s.min v with hle | hlt
        · simp only [updateStats]
          rw [min_eq_left hle]
          exact List.mem_append_left _ hmin
        · simp only [updateStats]
          rw [min_eq_right hlt.le]
          exact List.mem_append_right _ (by simp)
      · rcases le_or_lt v s.max with hle | hlt
        · simp only [updateStats]
          rw [max_eq_left hle]
          exact List.mem_append_left _ hmax
        · simp only [updateStats]
          rw [max_eq_right hlt.le]
          exact List.mem_append_right _ (by simp)
      · intro x hx
        rcases List.mem_append.1 hx with hx | hx
        · refine ⟨le_trans (min_le_left _ _) (hbound x hx).1, le_trans (hbound x hx).2 (le_max_left _ _)⟩
        · have hxv : x = v := by simpa using hx
          subst hxv
          exact ⟨min_le_right _ _, le_max_right _ _⟩
    have := ih (updateStats s v) (xs ++ [v]) hstep
    simpa [List.append_assoc] using this

theorem parseAll_error_of_mem (lines : List (List Char)) (l : List Char)
    (hmem : l ∈ lines) (e : FormatError) (herr : parseRecord l = .error e) :
    ∃ e2, parseAll lines = .error e2 := by
  induction lines with
  | nil => cases hmem
  | cons x rest ih =>
    rcases List.mem_cons.1 hmem with hx | hx
    · subst hx
      exact ⟨e, by simp [parseAll, herr]⟩
    · rcases hpx : parseRecord x with e1 | r
      · exact ⟨e1, by simp [parseAll, hpx]⟩
      · obtain ⟨e2, h2⟩ := ih hx
        exact ⟨e2, by simp [parseAll, hpx, h2]⟩

theorem runSkipFrom_spec (lines : List (List Char)) (m : StatsMap) (n : Nat) :
    runSkipFrom m n lines = (aggregateFrom m (okRecords lines), n + badCount lines) := by
  induction lines generalizing m n with
  | nil => simp [runSkipFrom, okRecords, badCount, aggregateFrom]
  | cons l rest ih =>
    rcases hpl : parseRecord l with e | r
    · have hstep : runSkipFrom m n (l :: rest) = runSkipFrom m (n + 1) rest := by
        simp [runSkipFrom, hpl]
      rw [hstep, ih]
      have hok : okRecords (l :: rest) = okRecords rest := by
        simp [okRecords, List.filterMap_cons, hpl, Except.toOption]
      have hbad : badCount (l :: rest) = badCount rest + 1 := by
        simp [badCount, List.filter_cons, hpl, Except.toOption]
      rw [hok, hbad]
      ring_nf
    · have hstep : runSkipFrom m n (l :: rest) = runSkipFrom (foldValue m r.1 r.2) n rest := by
        simp [runSkipFrom, hpl]
      rw [hstep, ih]
      have hok : okRecords (l :: rest) = r :: okRecords rest := by
        simp [okRecords, List.filterMap_cons, hpl, Except.toOption]
      have hbad : badCount (l :: rest) = badCount rest := by
        simp [badCount, List.filter_cons, hpl, Except.toOption]
      rw [hok, hbad]
      rfl

theorem splitFirstOn_of_not_mem (d : Char) (l : List Char)
    (h : d ∉ l) : splitFirstOn d l = none := by
  induction l with
  | nil => rfl
  | cons c cs ih =>
    simp only [List.mem_cons] at h
    push_neg at h
    have hcd : c ≠ d := fun hh => h.1 hh.symm
    simp [splitFirstOn, hcd, ih h.2]

theorem splitFirstOn_first (d : Char) (k rest : List Char)
    (h : d ∉ k) : splitFirstOn d (k ++ d :: rest) = some (k, rest) := by
  induction k with
  | nil => simp [splitFirstOn]
  | cons c cs ih =>
    simp only [List.mem_cons] at h
    push_neg at h
    have hcd : c ≠ d := fun hh => h.1 hh.symm
    have hrec := ih h.2
    simp [splitFirstOn, hcd, hrec]

theorem foldl_mergeStats_swap (a : PartialStats) (x y : PartialStats) :
    mergeStats (mergeStats a x) y = mergeStats (mergeStats a y) x := by
  rw [mergeStats_assoc, mergeStats_assoc, mergeStats_comm x y]

theorem foldl_mergeStats_perm (l1 l2 : List PartialStats) (h : l1.Perm l2)
    (a : PartialStats) : l1.foldl mergeStats a = l2.foldl mergeStats a := by
  induction h generalizing a with
  | nil => rfl
  | cons x _ ih => exact ih (mergeStats a x)
  | swap x y l =>
    simp only [List.foldl_cons]
    rw [foldl_mergeStats_swap]
  | trans _ _ ih1 ih2 => exact (ih1 a).trans (ih2 a)

/-- C2: for every input and every partition of its records into chunks,
aggregating the chunks and merging them yields exactly the same final
per-key statistics (count, sum, min, max) as aggregating the whole input
as a single chunk. -/
theorem onebrc_c2 (chunks : List (List Record)) (k : Key) :
    lookupKey k (mergeAll (chunks.map aggregate)) = lookupKey k (aggregate chunks.flatten) := by
  rw [lookupKey_aggregate, valuesOf_flatten]
  have h := lookupKey_foldl_mergeMaps k chunks []
  simpa [mergeAll, lookupKey] using h

/-- C3: the merge combination on two partial statistics for the same key —
count = a.count + b.count, sum = a.sum + b.sum, min = min(a.min, b.min),
max = max(a.max, b.max) — is associative and commutative, so folding any
permutation of a list of partial statistics merges to the same result. -/
theorem onebrc_c3 :
    (∀ a b : PartialStats, mergeStats a b =
      ⟨a.count + b.count, a.sum + b.sum, min a.min b.min, max a.max b.max⟩)
    ∧ (∀ a b c : PartialStats, mergeStats (mergeStats a b) c = mergeStats a (mergeStats b c))
    ∧ (∀ a b : PartialStats, mergeStats a b = mergeStats b a)
    ∧ (∀ (l1 l2 : List PartialStats) (a : PartialStats), l1.Perm l2 →
        l1.foldl mergeStats a = l2.foldl mergeStats a) :=
  ⟨fun _ _ => rfl, mergeStats_assoc, mergeStats_comm,
    fun l1 l2 a h => foldl_mergeStats_perm l1 l2 h a⟩

/-- Witness for C3: merging two concrete partial statistics in either order
gives the same result. -/
theorem onebrc_c3_witness :
    ([⟨1, 2, 2, 2⟩, ⟨2, 5, 1, 4⟩] : List PartialStats).foldl mergeStats ⟨1, 3, 3, 3⟩ =
      ([⟨2, 5, 1, 4⟩, ⟨1, 2, 2, 2⟩] : List PartialStats).foldl mergeStats ⟨1, 3, 3, 3⟩ :=
  onebrc_c3.2.2.2 _ _ _ (List.Perm.swap _ _ _)

/-- C4: an empty input file has zero record lines and the pipeline produces
an empty result mapping with exit code 0, not an error. -/
theorem onebrc_c4 :
    toLines [] = [] ∧ processFile [] = .ok [] ∧ exitCode (processFile []) = 0 :=
  ⟨rfl, rfl, rfl⟩

/-- C7: the program accepts one optional positional argument, the input
file path, and when it is omitted it reads the fixed default sample path. -/
theorem onebrc_c7 :
    (∀ prog path : String, fname [prog, path] = path)
    ∧ (∀ prog : String, fname [prog] = "./data/test.txt")
    ∧ fname [] = "./data/test.txt" :=
  ⟨fun _ _ => rfl, fun _ => rfl, rfl⟩

/-- C9: with any argument count other than exactly one (len(argv) ≠ 2,
counting the program name), all arguments are silently ignored and the
fixed default path is read; exactly one argument is used as the input path;
no argument count is rejected. -/
theorem onebrc_c9 :
    (∀ argv : List String, argv.length ≠ 2 → fname argv = "./data/test.txt")
    ∧ (∀ prog path : String, fname [prog, path] = path) := by
  constructor
  · intro argv h
    simp [fname, h]
  · intro prog path
    rfl

/-- Witness for C9: a three-element argument vector falls back to the
default sample path. -/
theorem onebrc_c9_witness : fname ["p", "x", "y"] = "./data/test.txt" :=
  onebrc_c9.1 ["p", "x", "y"] (by decide)

/-- C5: a record missing the delimiter, with an empty key, with an empty
numeric field, or with a non-numeric value field (such as `B;abc`) raises a
`FormatError` rather than being silently skipped; under the abort policy the
pipeline halts with a non-zero exit, and under the skip policy the record is
excluded from the statistics and counted. -/
theorem onebrc_c5 :
    (∀ line : List Char, ';' ∉ line → parseRecord line = .error .missingDelimiter)
    ∧ (∀ rest : List Char, parseRecord (';' :: rest) = .error .emptyKey)
    ∧ (∀ k : List Char, k ≠ [] → ';' ∉ k → parseRecord (k ++ [';']) = .error .emptyField)
    ∧ parseRecord ['B', ';', 'a', 'b', 'c'] = .error .badNumber
    ∧ (∀ (lines : List (List Char)) (l : List Char), l ∈ lines →
        ∀ e : FormatError, parseRecord l = .error e → exitCode (runAbort lines) ≠ 0)
    ∧ (∀ lines : List (List Char),
        runSkip lines = (aggregate (okRecords lines), badCount lines)) := by
  refine ⟨?_, ?_, ?_, rfl, ?_, ?_⟩
  · intro line h
    simp [parseRecord, splitFirstOn_of_not_mem ';' line h]
  · intro rest
    simp [parseRecord, splitFirstOn]
  · intro k hne hmem
    obtain ⟨c, cs, rfl⟩ := List.exists_cons_of_ne_nil hne
    have hs := splitFirstOn_first ';' (c :: cs) [] hmem
    simp only [List.cons_append] at hs
    simp [parseRecord, hs]
  · intro lines l hl e he
    obtain ⟨e2, h2⟩ := parseAll_error_of_mem lines l hl e he
    simp [runAbort, h2, exitCode]
  · intro lines
    have h := runSkipFrom_spec lines [] 0
    simpa [runSkip, aggregate] using h

/-- Witness for C5: with a malformed record present, the abort policy exits
non-zero, and the skip policy on a single malformed record tallies it. -/
theorem onebrc_c5_witness :
    exitCode (runAbort [['A', ';', '1', '.', '0'], ['B', ';', 'a', 'b', 'c']]) ≠ 0
    ∧ runSkip [['B', ';', 'a', 'b', 'c']] =
        (aggregate (okRecords [['B', ';', 'a', 'b', 'c']]),
          badCount [['B', ';', 'a', 'b', 'c']]) :=
  ⟨onebrc_c5.2.2.2.2.1 _ ['B', ';', 'a', 'b', 'c'] (by simp) .badNumber rfl,
    onebrc_c5.2.2.2.2.2 _⟩

/-- C6: a record line is split on the first occurrence of the field
delimiter: everything before that occurrence is the key, and everything
after it is the numeric field. -/
theorem onebrc_c6 :
    (∀ k rest : List Char, ';' ∉ k → splitFirstOn ';' (k ++ ';' :: rest) = some (k, rest))
    ∧ (∀ line : List Char, ';' ∉ line → splitFirstOn ';' line = none)
    ∧ (∀ (k rest : List Char) (v : Rat), ';' ∉ k → k ≠ [] → parseNumber rest = some v →
        parseRecord (k ++ ';' :: rest) = .ok (k, v)) := by
  refine ⟨splitFirstOn_first ';', splitFirstOn_of_not_mem ';', ?_⟩
  intro k rest v hmem hne hv
  have hrest : rest ≠ [] := by
    intro hr
    subst hr
    simp [parseNumber] at hv
  obtain ⟨c, cs, rfl⟩ := List.exists_cons_of_ne_nil hne
  obtain ⟨d, ds, rfl⟩ := List.exists_cons_of_ne_nil hrest
  have hs := splitFirstOn_first ';' (c :: cs) (d :: ds) hmem
  simp only [List.cons_append] at hs
  simp [parseRecord, hs, hv]

/-- Witness for C6: the concrete line `B;1` splits into key `B` and numeric
field `1`, and parses to the record (B, 1). -/
theorem onebrc_c6_witness :
    splitFirstOn ';' (['B'] ++ ';' :: ['1']) = some (['B'], ['1'])
    ∧ parseRecord (['B'] ++ ';' :: ['1']) = .ok (['B'], 1) :=
  ⟨onebrc_c6.1 ['B'] ['1'] (by decide),
    onebrc_c6.2.2 ['B'] ['1'] 1 (by decide) (by decide) (by simp [parseNumber, parseUnsigned, splitFirstOn, allDigits, digitsVal])⟩

theorem goodStats_build (v : Rat) (vs : List Rat) :
    goodStats (vs.foldl updateStats (initStats v)) (v :: vs) := by
  have hinit : goodStats (initStats v) [v] := by
    refine ⟨rfl, by simp [initStats], by simp [initStats], by simp [initStats], ?_⟩
    intro x hx
    have hxv : x = v := by simpa using hx
    subst hxv
    exact ⟨le_refl _, le_refl _⟩
  have h := goodStats_foldl vs (initStats v) [v] hinit
  simpa using h

/-- C8: a per-key aggregate built by folding values has count equal to the
number of folded values (hence positive, so the mean sum/count is only ever
formed with count > 0) and min/max bounding every folded value, and the
fold follows the update rule: a key's first value v inserts
(count=1, sum=v, min=v, max=v), each later value v sets count+=1, sum+=v,
min=min(min,v), max=max(max,v). -/
theorem onebrc_c8 :
    (∀ (v : Rat) (vs : List Rat),
        (vs.foldl updateStats (initStats v)).count = (v :: vs).length
        ∧ 0 < (vs.foldl updateStats (initStats v)).count
        ∧ ∀ x, x ∈ v :: vs →
            (vs.foldl updateStats (initStats v)).min ≤ x
            ∧ x ≤ (vs.foldl updateStats (initStats v)).max)
    ∧ (∀ (m : StatsMap) (k : Key) (v : Rat), lookupKey k m = none →
        lookupKey k (foldValue m k v) = some ⟨1, v, v, v⟩)
    ∧ (∀ (m : StatsMap) (k : Key) (v : Rat) (s : PartialStats), lookupKey k m = some s →
        lookupKey k (foldValue m k v) =
          some ⟨s.count + 1, s.sum + v, min s.min v, max s.max v⟩) := by
  refine ⟨?_, ?_, ?_⟩
  · intro v vs
    obtain ⟨hc, _, _, _, hbound⟩ := goodStats_build v vs
    refine ⟨hc, ?_, hbound⟩
    rw [hc]
    simp
  · intro m k v h
    rw [lookupKey_foldValue, if_pos rfl, h]
    rfl
  · intro m k v s h
    rw [lookupKey_foldValue, if_pos rfl, h]
    rfl

/-- Witness for C8: on an empty mapping the key A's first value 1 inserts
stats (1, 1, 1, 1), and folding values 1, 3, 2 yields count 3 with min/max
bounding the folded value 3. -/
theorem onebrc_c8_witness :
    lookupKey ['A'] (foldValue [] ['A'] (1 : Rat)) = some ⟨1, 1, 1, 1⟩
    ∧ (([3, 2] : List Rat).foldl updateStats (initStats 1)).count = 3
    ∧ ((([3, 2] : List Rat).foldl updateStats (initStats 1)).min ≤ 3
        ∧ (3 : Rat) ≤ (([3, 2] : List Rat).foldl updateStats (initStats 1)).max) :=
  ⟨onebrc_c8.2.1 [] ['A'] 1 rfl,
    (onebrc_c8.1 1 [3, 2]).1,
    (onebrc_c8.1 1 [3, 2]).2.2 3 (by simp)⟩

/-- The three example record lines A;1.0, A;2.0, A;3.0. -/
def exampleLines : List (List Char) :=
  [['A', ';', '1', '.', '0'], ['A', ';', '2', '.', '0'], ['A', ';', '3', '.', '0']]

/-- The records those example lines parse to. -/
def exampleRecords : List Record := [(['A'], 1), (['A'], 2), (['A'], 3)]

/-- C1: for every well-formed input, the output holds, for each key
occurring in it, exactly the minimum, the mean and the maximum of that
key's values; in particular for records A;1.0, A;2.0, A;3.0 the result for
key A is min=1, mean=2, max=3 over count=3 folded values. -/
theorem onebrc_c1 :
    (∀ (lines : List (List Char)) (rs : List Record) (k : Key),
        parseAll lines = .ok rs → valuesOf k rs ≠ [] →
        ∃ s, lookupKey k (aggregate rs) = some s
          ∧ s.count = (valuesOf k rs).length
          ∧ s.sum = (valuesOf k rs).sum
          ∧ meanOf s = (valuesOf k rs).sum / ((valuesOf k rs).length : Rat)
          ∧ s.min ∈ valuesOf k rs ∧ (∀ x ∈ valuesOf k rs, s.min ≤ x)
          ∧ s.max ∈ valuesOf k rs ∧ (∀ x ∈ valuesOf k rs, x ≤ s.max))
    ∧ runAbort exampleLines = .ok [(['A'], ⟨3, 6, 1, 3⟩)]
    ∧ meanOf ⟨3, 6, 1, 3⟩ = 2 := by
  refine ⟨?_, ?_, ?_⟩
  · intro lines rs k hparse hne
    rcases hv : valuesOf k rs with _ | ⟨v, vs⟩
    · exact absurd hv hne
    · refine ⟨vs.foldl updateStats (initStats v), ?_, ?_⟩
      · rw [lookupKey_aggregate, hv]
        have h0 : optFoldVals none (v :: vs) = optFoldVals (some (initStats v)) vs := rfl
        rw [h0, optFoldVals_some]
      · obtain ⟨hc, hs, hmin, hmax, hbound⟩ := goodStats_build v vs
        refine ⟨hc, hs, ?_, hmin, fun x hx => (hbound x hx).1, hmax, fun x hx => (hbound x hx).2⟩
        rw [meanOf, hc, hs]
  · simp [runAbort, exampleLines, parseAll, parseRecord, splitFirstOn, parseNumber,
      parseUnsigned, digitsVal, allDigits, aggregate, aggregateFrom, foldValue,
      initStats, updateStats]
    norm_num
  · rw [meanOf]
    norm_num

/-- Witness for C1: the general per-key correctness applied to the three
example records for key A. -/
theorem onebrc_c1_witness :
    parseAll exampleLines = .ok exampleRecords
    ∧ ∃ s, lookupKey ['A'] (aggregate exampleRecords) = some s
        ∧ s.count = (valuesOf ['A'] exampleRecords).length
        ∧ s.sum = (valuesOf ['A'] exampleRecords).sum
        ∧ meanOf s = (valuesOf ['A'] exampleRecords).sum /
            ((valuesOf ['A'] exampleRecords).length : Rat)
        ∧ s.min ∈ valuesOf ['A'] exampleRecords
        ∧ (∀ x ∈ valuesOf ['A'] exampleRecords, s.min ≤ x)
        ∧ s.max ∈ valuesOf ['A'] exampleRecords
        ∧ (∀ x ∈ valuesOf ['A'] exampleRecords, x ≤ s.max) := by
  have hparse : parseAll exampleLines = .ok exampleRecords := by
    simp [exampleLines, exampleRecords, parseAll, parseRecord, splitFirstOn,
      parseNumber, parseUnsigned, digitsVal, allDigits]
  exact ⟨hparse, onebrc_c1.1 exampleLines exampleRecords ['A'] hparse (by decide)⟩
